import Mathlib

/- Shallow embedding of the dungeon worker programs (wizard.c, rogue.c,
   barbarian.c, game.c).  Bytes are modelled as natural numbers below 256;
   C strings are modelled as lists of bytes, with the null terminator
   handled through takeWhile.  The float quantities of the trap search are
   modelled as rationals.  On the target platform char is signed, so the
   cipher key read from the first byte goes through signedByte. -/

/-- Test for an upper-case ASCII letter, matching isupper in the C locale. -/
def isUpperB (c : Nat) : Bool := decide (65 ≤ c ∧ c ≤ 90)

/-- Test for a lower-case ASCII letter, matching islower in the C locale. -/
def isLowerB (c : Nat) : Bool := decide (97 ≤ c ∧ c ≤ 122)

/-- Test for an ASCII letter, matching isalpha in the C locale. -/
def isAlphaB (c : Nat) : Bool := isUpperB c || isLowerB c

/-- Alphabet base chosen in decode_caesar_cipher (wizard.c line 105):
    islower(c) selects the base letter a, otherwise A. -/
def baseOf (c : Nat) : Nat := if isLowerB c then 97 else 65

/-- Value obtained when a byte is read through a C char on the target
    platform, where char is signed. -/
def signedByte (b : Nat) : Int := if b < 128 then (b : Int) else (b : Int) - 256

/-- Decoding of one message byte in decode_caesar_cipher (wizard.c line
    107): base + (c - base - key % 26 + 26) % 26 for letters, identity for
    every other byte.  The C % on int is the truncated-division remainder,
    hence Int.tmod. -/
def decodeChar (key : Int) (c : Nat) : Nat :=
  if isAlphaB c then
    ((baseOf c : Int) + ((c : Int) - baseOf c - Int.tmod key 26 + 26).tmod 26).toNat
  else c

/-- The decode_caesar_cipher function of wizard.c (lines 83 to 115) acting
    on buffer contents.  The C strlen scan stops at the first zero byte;
    the key is the first byte of that prefix, the output is the list of
    bytes written before the null terminator, at most max_len - 1 of them. -/
def decode_caesar_cipher (encoded : List Nat) (max_len : Nat) : List Nat :=
  if max_len = 0 then []
  else
    let s := encoded.takeWhile (· != 0)
    if s.length = 0 then []
    else ((s.drop 1).take (max_len - 1)).map (decodeChar (signedByte (s.getD 0 0)))

/-- Modelled from the spec: the encode-with-same-key operation is not in
    the worker sources (it lives in the externally supplied dungeon object
    file); per the spec it shifts each alphabetic byte forward by key
    mod 26 within its case and leaves every other byte unchanged. -/
def encodeChar (key : Nat) (c : Nat) : Nat :=
  if isAlphaB c then baseOf c + (c - baseOf c + key % 26) % 26 else c

/-- Modelled from the spec: full encode, the key byte prepended to the
    shifted message. -/
def encodeSpec (key : Nat) (msg : List Nat) : List Nat :=
  key % 256 :: msg.map (encodeChar key)

/-- Backward shift by key mod 26 within the case of c, with the positive
    bias before reduction, as the spec words it. -/
def specShiftBack (key c : Nat) : Nat :=
  baseOf c + (c - baseOf c + (26 - key % 26)) % 26

lemma takeWhile_ne_zero_eq (l : List Nat) (h : ∀ b ∈ l, b ≠ 0) :
    l.takeWhile (· != 0) = l := by
  induction l with
  | nil => rfl
  | cons a t ih =>
    have ha : a ≠ 0 := h a (List.mem_cons_self a t)
    simp only [List.takeWhile_cons]
    rw [if_pos (by simpa using ha)]
    rw [ih fun b hb => h b (List.mem_cons_of_mem _ hb)]

lemma decodeChar_zero (key : Int) : decodeChar key 0 = 0 := by
  simp [decodeChar, isAlphaB, isUpperB, isLowerB]

lemma encodeChar_ne_zero (key b : Nat) (hb : b ≠ 0) : encodeChar key b ≠ 0 := by
  by_cases hc : isAlphaB b = true
  · simp only [encodeChar, if_pos hc, baseOf]
    split <;> omega
  · simpa [encodeChar, hc] using hb

lemma decodeChar_not_alpha (key : Int) (b : Nat) (hb : isAlphaB b = false) :
    decodeChar key b = b := by
  simp [decodeChar, hb]

lemma encodeChar_not_alpha (key b : Nat) (hb : isAlphaB b = false) :
    encodeChar key b = b := by
  simp [encodeChar, hb]

lemma signedByte_small (key : Nat) (hk : key ≤ 127) : signedByte key = (key : Int) := by
  rw [signedByte, if_pos (by omega)]

lemma tmod_cast_nonneg (key : Nat) : Int.tmod (key : Int) 26 = (key : Int) % 26 :=
  Int.tmod_eq_emod (by positivity) (by norm_num)

lemma decodeChar_encodeChar (key : Nat) (hk : key ≤ 127) (c : Nat) :
    decodeChar (signedByte key) (encodeChar key c) = c := by
  rw [signedByte_small key hk]
  by_cases hc : isAlphaB c = true
  · by_cases hl : isLowerB c = true
    · have hb : 97 ≤ c ∧ c ≤ 122 := by simpa [isLowerB] using hl
      have he : encodeChar key c = 97 + (c - 97 + key % 26) % 26 := by
        simp [encodeChar, hc, baseOf, hl]
      have h1 : 97 ≤ encodeChar key c ∧ encodeChar key c ≤ 122 := by
        rw [he]; omega
      have h2 : isAlphaB (encodeChar key c) = true := by
        simp [isAlphaB, isUpperB, isLowerB]; omega
      have h3 : isLowerB (encodeChar key c) = true := by
        simp [isLowerB]; omega
      rw [decodeChar, if_pos h2, baseOf, if_pos h3, tmod_cast_nonneg]
      push_cast
      have hX : (0 : Int) ≤ (encodeChar key c : Int) - 97 - (key : Int) % 26 + 26 := by
        omega
      rw [Int.tmod_eq_emod hX (by norm_num : (0 : Int) ≤ 26)]
      omega
    · have hu : isUpperB c = true := by
        rcases Bool.or_eq_true_iff.mp (by simpa [isAlphaB] using hc) with h | h
        · exact h
        · exact absurd h (by simpa using hl)
      have hb : 65 ≤ c ∧ c ≤ 90 := by simpa [isUpperB] using hu
      have hl' : isLowerB c = false := by simpa using hl
      have he : encodeChar key c = 65 + (c - 65 + key % 26) % 26 := by
        simp [encodeChar, hc, baseOf, hl']
      have h1 : 65 ≤ encodeChar key c ∧ encodeChar key c ≤ 90 := by
        rw [he]; omega
      have h2 : isAlphaB (encodeChar key c) = true := by
        simp [isAlphaB, isUpperB, isLowerB]; omega
      have h3 : isLowerB (encodeChar key c) = false := by
        simp [isLowerB]; omega
      rw [decodeChar, if_pos h2, baseOf, if_neg (by simp [h3]), tmod_cast_nonneg]
      push_cast
      have hX : (0 : Int) ≤ (encodeChar key c : Int) - 65 - (key : Int) % 26 + 26 := by
        omega
      rw [Int.tmod_eq_emod hX (by norm_num : (0 : Int) ≤ 26)]
      omega
  · have hc' : isAlphaB c = false := by simpa using hc
    rw [encodeChar_not_alpha key c hc', decodeChar_not_alpha _ c hc']

lemma decodeChar_spec (key : Nat) (hk : key ≤ 127) (c : Nat) (hc : isAlphaB c = true) :
    decodeChar (signedByte key) c = specShiftBack key c := by
  rw [signedByte_small key hk]
  by_cases hl : isLowerB c = true
  · have hb : 97 ≤ c ∧ c ≤ 122 := by simpa [isLowerB] using hl
    rw [decodeChar, if_pos hc, baseOf, if_pos hl, tmod_cast_nonneg]
    push_cast
    have hX : (0 : Int) ≤ (c : Int) - 97 - (key : Int) % 26 + 26 := by omega
    rw [Int.tmod_eq_emod hX (by norm_num : (0 : Int) ≤ 26)]
    rw [specShiftBack, baseOf, if_pos hl]
    omega
  · have hu : isUpperB c = true := by
      rcases Bool.or_eq_true_iff.mp (by simpa [isAlphaB] using hc) with h | h
      · exact h
      · exact absurd h (by simpa using hl)
    have hb : 65 ≤ c ∧ c ≤ 90 := by simpa [isUpperB] using hu
    have hl' : isLowerB c = false := by simpa using hl
    rw [decodeChar, if_pos hc, baseOf, if_neg (by simp [hl']), tmod_cast_nonneg]
    push_cast
    have hX : (0 : Int) ≤ (c : Int) - 65 - (key : Int) % 26 + 26 := by omega
    rw [Int.tmod_eq_emod hX (by norm_num : (0 : Int) ≤ 26)]
    rw [specShiftBack, baseOf, if_neg (by simp [hl'])]
    omega

lemma decode_cons (k : Nat) (rest : List Nat) (max_len : Nat)
    (hk : k ≠ 0) (hz : ∀ b ∈ rest, b ≠ 0) (hlen : rest.length + 1 ≤ max_len) :
    decode_caesar_cipher (k :: rest) max_len = rest.map (decodeChar (signedByte k)) := by
  have hall : ∀ b ∈ k :: rest, b ≠ 0 := by
    intro b hb
    rcases List.mem_cons.mp hb with h | h
    · subst h; exact hk
    · exact hz b h
  rw [decode_caesar_cipher]
  rw [if_neg (by omega)]
  simp only [takeWhile_ne_zero_eq _ hall]
  rw [if_neg (by simp)]
  simp only [List.drop_one, List.tail_cons, List.getD_cons_zero]
  rw [List.take_of_length_le (by omega)]

lemma decode_nil (max_len : Nat) : decode_caesar_cipher [] max_len = [] := by
  rw [decode_caesar_cipher]
  split
  · rfl
  · simp

lemma specShiftBack_case (key c : Nat) (hc : isAlphaB c = true) :
    isAlphaB (specShiftBack key c) = true ∧
    isLowerB (specShiftBack key c) = isLowerB c := by
  by_cases hl : isLowerB c = true
  · have hb : 97 ≤ c ∧ c ≤ 122 := by simpa [isLowerB] using hl
    have hs : specShiftBack key c = 97 + (c - 97 + (26 - key % 26)) % 26 := by
      simp [specShiftBack, baseOf, hl]
    constructor
    · simp only [hs, isAlphaB, isUpperB, isLowerB]
      simp only [Bool.or_eq_true, decide_eq_true_eq]
      omega
    · rw [hl, hs]
      simp only [isLowerB, decide_eq_true_eq]
      omega
  · have hu : isUpperB c = true := by
      rcases Bool.or_eq_true_iff.mp (by simpa [isAlphaB] using hc) with h | h
      · exact h
      · exact absurd h (by simpa using hl)
    have hb : 65 ≤ c ∧ c ≤ 90 := by simpa [isUpperB] using hu
    have hl' : isLowerB c = false := by simpa using hl
    have hs : specShiftBack key c = 65 + (c - 65 + (26 - key % 26)) % 26 := by
      simp [specShiftBack, baseOf, hl']
    constructor
    · simp only [hs, isAlphaB, isUpperB, isLowerB]
      simp only [Bool.or_eq_true, decide_eq_true_eq]
      omega
    · rw [hl', hs]
      simp only [isLowerB, decide_eq_false_iff_not, decide_eq_true_eq]
      omega

/-- C1 (amended): for a key between 1 and 127 and a message without zero
    bytes that fits the output buffer, decoding the encoded spell returns
    the message, re-encoding the decoded result reproduces the encoded
    sequence, non-alphabetic bytes pass through unchanged in both
    directions, and empty input produces empty output. -/
theorem decode_encode_roundtrip (key : Nat) (msg : List Nat) (max_len : Nat)
    (hk1 : 1 ≤ key) (hk2 : key ≤ 127)
    (hz : ∀ b ∈ msg, b ≠ 0) (hlen : msg.length + 1 ≤ max_len) :
    decode_caesar_cipher (encodeSpec key msg) max_len = msg ∧
    encodeSpec key (decode_caesar_cipher (encodeSpec key msg) max_len) =
      encodeSpec key msg ∧
    (∀ b, isAlphaB b = false →
      decodeChar (signedByte key) b = b ∧ encodeChar key b = b) ∧
    decode_caesar_cipher [] max_len = [] := by
  have hkey : key % 256 = key := Nat.mod_eq_of_lt (by omega)
  have hz' : ∀ b ∈ msg.map (encodeChar key), b ≠ 0 := by
    intro b hb
    rcases List.mem_map.mp hb with ⟨a, ha, rfl⟩
    exact encodeChar_ne_zero key a (hz a ha)
  have hmain : decode_caesar_cipher (encodeSpec key msg) max_len = msg := by
    rw [encodeSpec, hkey]
    rw [decode_cons key _ max_len (by omega) hz' (by simpa using hlen)]
    rw [List.map_map]
    calc msg.map (decodeChar (signedByte key) ∘ encodeChar key)
        = msg.map id := List.map_congr_left fun b _ => decodeChar_encodeChar key hk2 b
      _ = msg := List.map_id msg
  refine ⟨hmain, by rw [hmain], ?_, decode_nil max_len⟩
  intro b hb
  exact ⟨decodeChar_not_alpha _ b hb, encodeChar_not_alpha key b hb⟩

/-- Witness for C1 at key 3, message Dhoo, buffer size 100. -/
theorem decode_encode_roundtrip_witness :
    decode_caesar_cipher (encodeSpec 3 [68, 104, 111, 111]) 100 = [68, 104, 111, 111] :=
  (decode_encode_roundtrip 3 [68, 104, 111, 111] 100 (by norm_num) (by norm_num)
    (by decide) (by norm_num)).1

/-- Counterexample to C1 as stated: with key 0 the prepended key byte is
    the string terminator, so the encoded spell reads back as the empty
    string and decoding returns the empty sequence, not the message. -/
theorem decode_encode_roundtrip_counterexample :
    decode_caesar_cipher (encodeSpec 0 [65]) 100 ≠ [65] := by decide

/-- C2 (amended): on a nonempty encoded string without interior zero bytes
    whose key byte is at most 127 and which fits the output buffer, the
    decoder output has length one less than the input, every alphabetic
    byte is shifted backward by key mod 26 within its own case, and every
    other byte is copied unchanged; empty input gives empty output. -/
theorem decode_shape (k : Nat) (rest : List Nat) (max_len : Nat)
    (hk0 : k ≠ 0) (hk : k ≤ 127) (hz : ∀ b ∈ rest, b ≠ 0)
    (hlen : rest.length + 1 ≤ max_len) :
    (decode_caesar_cipher (k :: rest) max_len).length = (k :: rest).length - 1 ∧
    (∀ i, i < rest.length →
      (isAlphaB (rest.getD i 0) = true →
        (decode_caesar_cipher (k :: rest) max_len).getD i 0 =
          specShiftBack k (rest.getD i 0) ∧
        isAlphaB ((decode_caesar_cipher (k :: rest) max_len).getD i 0) = true ∧
        isLowerB ((decode_caesar_cipher (k :: rest) max_len).getD i 0) =
          isLowerB (rest.getD i 0)) ∧
      (isAlphaB (rest.getD i 0) = false →
        (decode_caesar_cipher (k :: rest) max_len).getD i 0 = rest.getD i 0)) ∧
    decode_caesar_cipher [] max_len = [] := by
  have hd := decode_cons k rest max_len hk0 hz hlen
  refine ⟨by rw [hd]; simp, ?_, decode_nil max_len⟩
  intro i hi
  have hgd : (decode_caesar_cipher (k :: rest) max_len).getD i 0
      = decodeChar (signedByte k) (rest.getD i 0) := by
    rw [hd]
    simpa [decodeChar_zero] using
      List.getD_map rest 0 (n := i) (decodeChar (signedByte k))
  constructor
  · intro halpha
    rw [hgd, decodeChar_spec k hk _ halpha]
    exact ⟨rfl, (specShiftBack_case k _ halpha).1, (specShiftBack_case k _ halpha).2⟩
  · intro hna
    rw [hgd, decodeChar_not_alpha _ _ hna]

/-- Witness for C2 on the input 3, D with buffer size 10. -/
theorem decode_shape_witness :
    (decode_caesar_cipher [3, 68] 10).length = [3, 68].length - 1 :=
  (decode_shape 3 [68] 10 (by norm_num) (by norm_num) (by decide) (by norm_num)).1

/-- Counterexample to C2 as stated: an input with an interior zero byte is
    cut short by the strlen scan, so the output is shorter than the input
    length minus one. -/
theorem decode_shape_counterexample :
    (decode_caesar_cipher [3, 0, 65] 16).length ≠ [3, 0, 65].length - 1 := by decide

/-- C9 (amended): the encoded spell with key byte 3 and message Dhoo
    decodes to Aell whenever the output buffer holds it. -/
theorem dhoo_decodes_to_aell (max_len : Nat) (h : 5 ≤ max_len) :
    decode_caesar_cipher [3, 68, 104, 111, 111] max_len = [65, 101, 108, 108] := by
  rw [decode_cons 3 [68, 104, 111, 111] max_len (by norm_num) (by decide)
    (by simp only [List.length_cons, List.length_nil]; omega)]
  decide

/-- Witness for C9 at buffer size 20. -/
theorem dhoo_decodes_to_aell_witness :
    decode_caesar_cipher [3, 68, 104, 111, 111] 20 = [65, 101, 108, 108] :=
  dhoo_decodes_to_aell 20 (by norm_num)

/-- Counterexample to C9 as stated: the decoder maps the spell with key
    byte 3 and message Dhoo to Aell, not to Agll as the spec scenario
    claims. -/
theorem dhoo_decodes_counterexample :
    decode_caesar_cipher [3, 68, 104, 111, 111] 20 ≠ [65, 103, 108, 108] := by decide

/-- Midpoint formula of the trap search (rogue.c line 161):
    low + (high - low) / 2. -/
def trapMid (low high : ℚ) : ℚ := low + (high - low) / 2

/-- One observation of shared state made by an iteration of the internal
    search loop of rogue_signal_handler: the loop condition reads (trap
    locked, dungeon running, exit flag), the body checks the wall-clock
    deadline and reads trap.direction and rogue.pick. -/
structure TrapObs where
  timeout : Bool
  locked : Bool
  running : Bool
  exitFlag : Bool
  direction : Char
  pick : ℚ
deriving DecidableEq

/-- Result of one iteration of the internal search loop: either the loop
    stops, or it continues with new bounds, optionally having written a
    new pick and a direction byte to shared memory. -/
inductive TrapStepRes where
  | stop : TrapStepRes
  | cont (low high : ℚ) (write : Option (ℚ × Char)) : TrapStepRes
deriving DecidableEq

/-- Low bound update of rogue.c line 152: on feedback 'u' the low bound is
    raised to the pick when the pick is larger. -/
def updateLow (dir : Char) (pick low : ℚ) : ℚ :=
  if dir = 'u' ∧ low < pick then pick else low

/-- High bound update of rogue.c line 155: on feedback 'd' the high bound
    is lowered to the pick when the pick is smaller. -/
def updateHigh (dir : Char) (pick high : ℚ) : ℚ :=
  if dir = 'd' ∧ pick < high then pick else high

/-- One iteration of the internal search loop of rogue_signal_handler
    (rogue.c lines 130 to 172) as a function of the bounds and of the
    values observed in shared state during that iteration. -/
def trapStep (low high : ℚ) (o : TrapObs) : TrapStepRes :=
  if o.locked = true ∧ o.running = true ∧ o.exitFlag = false then
    if o.timeout = true then TrapStepRes.stop
    else if o.direction = '-' then TrapStepRes.stop
    else if o.direction = 'u' ∨ o.direction = 'd' then
      let low' := updateLow o.direction o.pick low
      let high' := updateHigh o.direction o.pick high
      if low' < high' ∧ 1/1000000 < high' - low' then
        TrapStepRes.cont low' high' (some (trapMid low' high', 't'))
      else TrapStepRes.stop
    else TrapStepRes.cont low high none
  else TrapStepRes.stop

/-- The internal search loop run over a trace of observations, returning
    the final bounds. -/
def trapLoop : ℚ → ℚ → List TrapObs → ℚ × ℚ
  | low, high, [] => (low, high)
  | low, high, o :: rest =>
    match trapStep low high o with
    | TrapStepRes.stop => (low, high)
    | TrapStepRes.cont l h _ => trapLoop l h rest

/-- Modelled from the spec: MAX_PICK_ANGLE comes from the missing
    dungeon_settings.h header; spec scenario B uses the trap range 0 to
    100, and the rogue.c comment on line 117 calls 50.0 the initial pick,
    which main sets to MAX_PICK_ANGLE / 2. -/
def MAX_PICK_ANGLE : ℚ := 100

/-- Bounds entering the search loop (rogue.c lines 119 to 124): reset to
    the full range unless the direction read at entry is 'u', 'd' or '-'. -/
def trapEntryBounds (low high : ℚ) (dir : Char) : ℚ × ℚ :=
  if dir ≠ 'u' ∧ dir ≠ 'd' ∧ dir ≠ '-' then ((0 : ℚ), MAX_PICK_ANGLE) else (low, high)

/-- State read once when the DUNGEON_SIGNAL arrives (rogue.c lines 108
    to 115). -/
structure TrapEntry where
  locked : Bool
  direction : Char
deriving DecidableEq

/-- The DUNGEON_SIGNAL branch of rogue_signal_handler (rogue.c lines 105
    to 189) as a transformation of the static search bounds, given the
    entry observation, the loop observations and the lock state read after
    the loop. -/
def rogueTrapHandler (low high : ℚ) (entry : TrapEntry) (trace : List TrapObs)
    (lockedAfter : Bool) : ℚ × ℚ :=
  if entry.locked = true then
    let p0 := trapEntryBounds low high entry.direction
    let p1 := trapLoop p0.1 p0.2 trace
    if lockedAfter = false then ((0 : ℚ), MAX_PICK_ANGLE) else p1
  else ((0 : ℚ), MAX_PICK_ANGLE)

lemma updateLow_u (p l : ℚ) : updateLow 'u' p l = max l p := by
  by_cases h : l < p
  · simp [updateLow, h, max_eq_right h.le]
  · simp [updateLow, h, max_eq_left (not_lt.mp h)]

lemma updateHigh_u (p h : ℚ) : updateHigh 'u' p h = h := by
  simp [updateHigh]

lemma updateLow_d (p l : ℚ) : updateLow 'd' p l = l := by
  simp [updateLow]

lemma updateHigh_d (p h : ℚ) : updateHigh 'd' p h = min h p := by
  by_cases hc : p < h
  · simp [updateHigh, hc, min_eq_right hc.le]
  · simp [updateHigh, hc, min_eq_left (not_lt.mp hc)]

lemma trapStep_feedback (low high : ℚ) (o : TrapObs)
    (hl : o.locked = true) (hr : o.running = true) (he : o.exitFlag = false)
    (ht : o.timeout = false) (hd : o.direction = 'u' ∨ o.direction = 'd')
    (hne : o.direction ≠ '-') :
    trapStep low high o =
      if updateLow o.direction o.pick low < updateHigh o.direction o.pick high ∧
          1/1000000 < updateHigh o.direction o.pick high - updateLow o.direction o.pick low
      then TrapStepRes.cont (updateLow o.direction o.pick low)
        (updateHigh o.direction o.pick high)
        (some (trapMid (updateLow o.direction o.pick low)
          (updateHigh o.direction o.pick high), 't'))
      else TrapStepRes.stop := by
  rw [trapStep, if_pos ⟨hl, hr, he⟩, if_neg (by simp [ht]), if_neg hne, if_pos hd]

/-- C3: one iteration of the trap search loop while locked, running, not
    shut down and not timed out: direction '-' stops the loop; on 'u' the
    low bound becomes max(low, pick), on 'd' the high bound becomes
    min(high, pick); then, when the resulting range width exceeds 1e-6,
    the midpoint low + (high - low) / 2 is written as the new shared guess
    with the direction byte set to 't', and otherwise the loop stops
    without writing a new guess. -/
theorem trapStep_cases (low high : ℚ) (o : TrapObs)
    (hl : o.locked = true) (hr : o.running = true) (he : o.exitFlag = false)
    (ht : o.timeout = false) :
    (o.direction = '-' → trapStep low high o = TrapStepRes.stop) ∧
    (o.direction = 'u' →
      ((1 : ℚ)/1000000 < high - max low o.pick →
        trapStep low high o = TrapStepRes.cont (max low o.pick) high
          (some (max low o.pick + (high - max low o.pick) / 2, 't'))) ∧
      (high - max low o.pick ≤ 1/1000000 →
        trapStep low high o = TrapStepRes.stop)) ∧
    (o.direction = 'd' →
      ((1 : ℚ)/1000000 < min high o.pick - low →
        trapStep low high o = TrapStepRes.cont low (min high o.pick)
          (some (low + (min high o.pick - low) / 2, 't'))) ∧
      (min high o.pick - low ≤ 1/1000000 →
        trapStep low high o = TrapStepRes.stop)) := by
  refine ⟨?_, ?_, ?_⟩
  · intro hd
    rw [trapStep, if_pos ⟨hl, hr, he⟩, if_neg (by simp [ht]), if_pos hd]
  · intro hd
    have hstep := trapStep_feedback low high o hl hr he ht (Or.inl hd)
      (by rw [hd]; decide)
    rw [hd, updateLow_u, updateHigh_u] at hstep
    constructor
    · intro hgap
      have hlt : max low o.pick < high := by
        have h0 : (0 : ℚ) < 1/1000000 := by norm_num
        linarith
      rw [hstep, if_pos ⟨hlt, hgap⟩, trapMid]
    · intro hgap
      rw [hstep, if_neg]
      rintro ⟨-, hgap2⟩
      linarith
  · intro hd
    have hstep := trapStep_feedback low high o hl hr he ht (Or.inr hd)
      (by rw [hd]; decide)
    rw [hd, updateLow_d, updateHigh_d] at hstep
    constructor
    · intro hgap
      have hlt : low < min high o.pick := by
        have h0 : (0 : ℚ) < 1/1000000 := by norm_num
        linarith
      rw [hstep, if_pos ⟨hlt, hgap⟩, trapMid]
    · intro hgap
      rw [hstep, if_neg]
      rintro ⟨-, hgap2⟩
      linarith

/-- Witness for C3: an iteration observing 'u' with pick 60 on bounds
    0 to 100 continues with low raised to 60 and the midpoint written. -/
theorem trapStep_cases_witness :
    trapStep 0 100 ⟨false, true, true, false, 'u', 60⟩ =
      TrapStepRes.cont (max 0 60) 100 (some (max 0 60 + (100 - max 0 60) / 2, 't')) := by
  have h := trapStep_cases 0 100 ⟨false, true, true, false, 'u', 60⟩ rfl rfl rfl rfl
  exact (h.2.1 rfl).1
    (by rw [max_eq_right (by norm_num : (0 : ℚ) ≤ 60)]; norm_num)

/-- C4: on a ChallengePosted signal with the trap locked, the persistent
    bounds entering the loop are replaced by the full range exactly when
    the observed direction is none of 'u', 'd', '-', and kept otherwise;
    and whenever the trap is observed unlocked after the loop (or at
    entry) the handler leaves the bounds at the full range, so a fresh
    episode starts from it. -/
theorem rogueTrapHandler_reset (low high : ℚ) (entry : TrapEntry)
    (trace : List TrapObs) (lockedAfter : Bool) :
    (entry.locked = true →
      (entry.direction ∉ (['u', 'd', '-'] : List Char) →
        trapEntryBounds low high entry.direction = ((0 : ℚ), MAX_PICK_ANGLE)) ∧
      (entry.direction ∈ (['u', 'd', '-'] : List Char) →
        trapEntryBounds low high entry.direction = (low, high))) ∧
    (lockedAfter = false →
      rogueTrapHandler low high entry trace lockedAfter = ((0 : ℚ), MAX_PICK_ANGLE)) ∧
    (entry.locked = false →
      rogueTrapHandler low high entry trace lockedAfter = ((0 : ℚ), MAX_PICK_ANGLE)) := by
  refine ⟨fun _ => ⟨?_, ?_⟩, ?_, ?_⟩
  · intro hmem
    simp only [List.mem_cons, List.not_mem_nil, or_false, not_or] at hmem
    rw [trapEntryBounds, if_pos ⟨hmem.1, hmem.2.1, hmem.2.2⟩]
  · intro hmem
    rw [trapEntryBounds, if_neg]
    rintro ⟨h1, h2, h3⟩
    simp only [List.mem_cons, List.not_mem_nil, or_false] at hmem
    rcases hmem with h | h | h
    · exact h1 h
    · exact h2 h
    · exact h3 h
  · intro hla
    by_cases hl : entry.locked = true
    · simp [rogueTrapHandler, hl, hla]
    · simp [rogueTrapHandler, hl]
  · intro hl
    simp [rogueTrapHandler, hl]

/-- Witness for C4: a locked entry with direction 't' resets to the full
    range, and an unlocked post-loop read leaves the full range. -/
theorem rogueTrapHandler_reset_witness :
    trapEntryBounds 3 4 't' = ((0 : ℚ), MAX_PICK_ANGLE) ∧
    rogueTrapHandler 3 4 ⟨true, 't'⟩ [] false = ((0 : ℚ), MAX_PICK_ANGLE) := by
  have h := rogueTrapHandler_reset 3 4 ⟨true, 't'⟩ [] false
  exact ⟨(h.1 rfl).1 (by decide), h.2.1 rfl⟩

/-- Feedback consistent with a fixed hidden threshold, as the claim poses
    it: 'u' (TooLow) exactly when the guess is below the threshold, 'd'
    (TooHigh) exactly when above, '-' when the guess hits it. -/
def feedback (t guess : ℚ) : Char :=
  if guess < t then 'u' else if t < guess then 'd' else '-'

/-- One closed-loop round of the trap search against a hidden threshold:
    the midpoint guess is submitted and the bounds are updated by the code
    update step according to the consistent feedback.  On feedback '-' the
    search is over and the state is left unchanged. -/
def searchRound (t : ℚ) (p : ℚ × ℚ) : ℚ × ℚ :=
  if feedback t (trapMid p.1 p.2) = '-' then p
  else (updateLow (feedback t (trapMid p.1 p.2)) (trapMid p.1 p.2) p.1,
        updateHigh (feedback t (trapMid p.1 p.2)) (trapMid p.1 p.2) p.2)

/-- Bounds after k closed-loop rounds from the initial range. -/
def searchStates (t low high : ℚ) : Nat → ℚ × ℚ
  | 0 => (low, high)
  | k + 1 => searchRound t (searchStates t low high k)

/-- Guess submitted in round k + 1, the midpoint of the bounds after k
    rounds. -/
def nthGuess (t low high : ℚ) (k : Nat) : ℚ :=
  trapMid (searchStates t low high k).1 (searchStates t low high k).2

lemma search_inv (t low high : ℚ) (h1 : low < t) (h2 : t < high) (k : Nat) :
    (searchStates t low high k).1 < t ∧ t < (searchStates t low high k).2 ∧
      ((searchStates t low high k).2 - (searchStates t low high k).1 ≤
          (high - low) / 2 ^ k ∨
        nthGuess t low high k = t) := by
  induction k with
  | zero => exact ⟨h1, h2, Or.inl (by simp [searchStates])⟩
  | succ k ih =>
    obtain ⟨hl, hh, hw⟩ := ih
    have hlh : (searchStates t low high k).1 < (searchStates t low high k).2 :=
      lt_trans hl hh
    have hs : searchStates t low high (k + 1) =
        searchRound t (searchStates t low high k) := rfl
    by_cases hm : trapMid (searchStates t low high k).1 (searchStates t low high k).2 = t
    · have hfb : feedback t (trapMid (searchStates t low high k).1
          (searchStates t low high k).2) = '-' := by
        rw [hm, feedback, if_neg (lt_irrefl t), if_neg (lt_irrefl t)]
      have hfix : searchStates t low high (k + 1) = searchStates t low high k := by
        rw [hs, searchRound, if_pos hfb]
      refine ⟨by rw [hfix]; exact hl, by rw [hfix]; exact hh, Or.inr ?_⟩
      rw [nthGuess, hfix, hm]
    · have hwid : (searchStates t low high k).2 - (searchStates t low high k).1 ≤
          (high - low) / 2 ^ k := by
        rcases hw with hw | hw
        · exact hw
        · exact absurd hw hm
      set m := trapMid (searchStates t low high k).1 (searchStates t low high k).2
        with hmdef
      have hm1 : m - (searchStates t low high k).1 =
          ((searchStates t low high k).2 - (searchStates t low high k).1) / 2 := by
        rw [hmdef, trapMid]; ring
      have hm2 : (searchStates t low high k).2 - m =
          ((searchStates t low high k).2 - (searchStates t low high k).1) / 2 := by
        rw [hmdef, trapMid]; ring
      have hmlow : (searchStates t low high k).1 < m := by
        have : (0 : ℚ) < ((searchStates t low high k).2 -
            (searchStates t low high k).1) / 2 := by linarith
        linarith
      have hmhigh : m < (searchStates t low high k).2 := by
        have : (0 : ℚ) < ((searchStates t low high k).2 -
            (searchStates t low high k).1) / 2 := by linarith
        linarith
      have hhalf : ((searchStates t low high k).2 - (searchStates t low high k).1) / 2 ≤
          (high - low) / 2 ^ (k + 1) := by
        rw [pow_succ]
        rw [div_mul_eq_div_div]
        linarith
      rcases lt_or_gt_of_ne hm with hlt | hgt
      · -- the guess is below the threshold: feedback 'u'
        have hfb : feedback t m = 'u' := by rw [feedback, if_pos hlt]
        have hnext : searchStates t low high (k + 1) =
            (m, (searchStates t low high k).2) := by
          rw [hs, searchRound, ← hmdef, if_neg (by rw [hfb]; decide), hfb,
            updateLow_u, updateHigh_u, max_eq_right hmlow.le]
        refine ⟨by rw [hnext]; exact hlt, by rw [hnext]; exact hh, Or.inl ?_⟩
        rw [hnext]
        simpa [hm2] using hhalf
      · -- the guess is above the threshold: feedback 'd'
        have hfb : feedback t m = 'd' := by
          rw [feedback, if_neg (by linarith), if_pos hgt]
        have hnext : searchStates t low high (k + 1) =
            ((searchStates t low high k).1, m) := by
          rw [hs, searchRound, ← hmdef, if_neg (by rw [hfb]; decide), hfb,
            updateLow_d, updateHigh_d, min_eq_right hmhigh.le]
        refine ⟨by rw [hnext]; exact hl, by rw [hnext]; exact hgt, Or.inl ?_⟩
        rw [hnext]
        simpa [hm1] using hhalf

/-- C5: with feedback consistent with a hidden threshold strictly inside
    the range (TooLow exactly when the guess is below it, TooHigh exactly
    when above), the guess sequence produced by the code update step
    reaches within epsilon = 1e-6 of the threshold within
    ceil(log2(width / epsilon)) guesses: whenever the initial width is at
    most epsilon * 2 ^ (N + 1), the guess of round N + 1 is within epsilon
    of the threshold. -/
theorem trap_search_converges (t low high : ℚ) (N : Nat)
    (h1 : low < t) (h2 : t < high)
    (hN : high - low ≤ (1/1000000) * 2 ^ (N + 1)) :
    |nthGuess t low high N - t| ≤ 1/1000000 := by
  obtain ⟨hl, hh, hw⟩ := search_inv t low high h1 h2 N
  rcases hw with hw | hw
  · have h2N : (0 : ℚ) < 2 ^ N := by positivity
    have hwidth : (searchStates t low high N).2 - (searchStates t low high N).1 ≤
        2 * (1/1000000) := by
      have hdiv : (high - low) / 2 ^ N ≤ 1/1000000 * 2 := by
        rw [div_le_iff₀ h2N]
        calc high - low ≤ 1/1000000 * 2 ^ (N + 1) := hN
          _ = 1/1000000 * 2 * 2 ^ N := by ring
      linarith
    rw [nthGuess, trapMid, abs_le]
    constructor <;> linarith
  · rw [hw]
    simp

/-- Witness for C5: threshold 1/2 inside the unit range is reached within
    20 guesses. -/
theorem trap_search_converges_witness :
    |nthGuess (1/2) 0 1 19 - 1/2| ≤ 1/1000000 :=
  trap_search_converges (1/2) 0 1 19 (by norm_num) (by norm_num) (by norm_num)

/-- One observation of shared state made by an iteration of the treasure
    collection loop of rogue_signal_handler (rogue.c lines 201 to 217):
    the loop condition reads running and the exit flag, the body checks
    the wall-clock deadline and reads the treasure buffer. -/
structure TObs where
  timeout : Bool
  running : Bool
  exitFlag : Bool
  treasure : List Nat
deriving DecidableEq

/-- The treasure collection loop of rogue.c lines 201 to 217 over a trace
    of observations.  State: the next index to fill, the spoils buffer,
    and the chronological log of (index, value) writes made to spoils. -/
def collectLoop : Nat → List Nat → List (Nat × Nat) → List TObs →
    Nat × List Nat × List (Nat × Nat)
  | count, spoils, log, [] => (count, spoils, log)
  | count, spoils, log, o :: rest =>
    if count < 4 ∧ o.running = true ∧ o.exitFlag = false then
      if o.timeout = true then (count, spoils, log)
      else if o.treasure.getD count 0 ≠ 0 then
        collectLoop (count + 1) (spoils.set count (o.treasure.getD count 0))
          (log ++ [(count, o.treasure.getD count 0)]) rest
      else collectLoop count spoils log rest
    else (count, spoils, log)

/-- The SEMAPHORE_SIGNAL branch of rogue_signal_handler (rogue.c lines 192
    to 231): the spoils buffer is cleared with memset, then the collection
    loop runs. -/
def rogueTreasureHandler (trace : List TObs) : Nat × List Nat × List (Nat × Nat) :=
  collectLoop 0 [0, 0, 0, 0] [] trace

lemma getD_set_self (l : List Nat) (i v : Nat) (h : i < l.length) :
    (l.set i v).getD i 0 = v := by
  induction l generalizing i with
  | nil => simp at h
  | cons a t ih =>
    cases i with
    | zero => rfl
    | succ j =>
      simp only [List.set, List.getD_cons_succ]
      exact ih j (by simpa using h)

lemma getD_set_ne (l : List Nat) (i j v : Nat) (h : i ≠ j) :
    (l.set i v).getD j 0 = l.getD j 0 := by
  induction l generalizing i j with
  | nil => simp
  | cons a t ih =>
    cases i with
    | zero =>
      cases j with
      | zero => exact absurd rfl h
      | succ m => rfl
    | succ n =>
      cases j with
      | zero => rfl
      | succ m =>
        simp only [List.set, List.getD_cons_succ]
        exact ih n m (by omega)

lemma collectLoop_inv (trace : List TObs) :
    ∀ (c : Nat) (s : List Nat) (l : List (Nat × Nat)),
    c ≤ 4 → s.length = 4 →
    (∀ i, c ≤ i → s.getD i 0 = 0) →
    (∀ i, i < c → s.getD i 0 ≠ 0 ∧ (i, s.getD i 0) ∈ l) →
    (∀ p ∈ l, p.2 ≠ 0) →
    l.map Prod.fst = List.range c →
    (collectLoop c s l trace).1 ≤ 4 ∧
    (collectLoop c s l trace).2.1.length = 4 ∧
    (∀ i, (collectLoop c s l trace).1 ≤ i →
      (collectLoop c s l trace).2.1.getD i 0 = 0) ∧
    (∀ i, i < (collectLoop c s l trace).1 →
      (collectLoop c s l trace).2.1.getD i 0 ≠ 0 ∧
      (i, (collectLoop c s l trace).2.1.getD i 0) ∈ (collectLoop c s l trace).2.2) ∧
    (∀ p ∈ (collectLoop c s l trace).2.2, p.2 ≠ 0) ∧
    (collectLoop c s l trace).2.2.map Prod.fst = List.range (collectLoop c s l trace).1 := by
  induction trace with
  | nil =>
    intro c s l hc hs h0 hlt hlz hmap
    simp only [collectLoop]
    exact ⟨hc, hs, h0, hlt, hlz, hmap⟩
  | cons o rest ih =>
    intro c s l hc hs h0 hlt hlz hmap
    by_cases hcond : c < 4 ∧ o.running = true ∧ o.exitFlag = false
    · by_cases htm : o.timeout = true
      · simp only [collectLoop, if_pos hcond, if_pos htm]
        exact ⟨hc, hs, h0, hlt, hlz, hmap⟩
      · by_cases hv : o.treasure.getD c 0 ≠ 0
        · simp only [collectLoop, if_pos hcond, if_neg htm, if_pos hv]
          apply ih
          · omega
          · simpa using hs
          · intro i hi
            rw [getD_set_ne s c i _ (by omega)]
            exact h0 i (by omega)
          · intro i hi
            rcases Nat.lt_succ_iff_lt_or_eq.mp hi with hi' | hi'
            · rw [getD_set_ne s c i _ (by omega)]
              obtain ⟨ha, hb⟩ := hlt i hi'
              exact ⟨ha, List.mem_append_left _ hb⟩
            · subst hi'
              rw [getD_set_self s i _ (by omega)]
              exact ⟨hv, List.mem_append_right _ (by simp)⟩
          · intro p hp
            rcases List.mem_append.mp hp with hp | hp
            · exact hlz p hp
            · obtain rfl : p = (c, o.treasure.getD c 0) := by simpa using hp
              exact hv
          · rw [List.map_append, hmap]
            simp [List.range_succ]
        · simp only [collectLoop, if_pos hcond, if_neg htm, if_neg hv]
          exact ih c s l hc hs h0 hlt hlz hmap
    · simp only [collectLoop, if_neg hcond]
      exact ⟨hc, hs, h0, hlt, hlz, hmap⟩

/-- C6: in every treasure collection episode the spoils buffer starts
    cleared and its bytes are written in strictly increasing index order
    0, 1, 2, 3 (the write log indices are exactly 0 .. m-1 in time order),
    each written value is a non-zero treasure byte observed at the same
    index, positions not yet reached stay zero, and the loop stops when
    all four bytes are copied, on timeout, when running turns false, or
    when the shutdown flag is set. -/
theorem treasure_collection (trace : List TObs) :
    (rogueTreasureHandler trace).1 ≤ 4 ∧
    (rogueTreasureHandler trace).2.2.map Prod.fst =
      List.range (rogueTreasureHandler trace).1 ∧
    (∀ p ∈ (rogueTreasureHandler trace).2.2, p.2 ≠ 0) ∧
    (∀ i, i < (rogueTreasureHandler trace).1 →
      (rogueTreasureHandler trace).2.1.getD i 0 ≠ 0 ∧
      (i, (rogueTreasureHandler trace).2.1.getD i 0) ∈
        (rogueTreasureHandler trace).2.2) ∧
    (∀ i, (rogueTreasureHandler trace).1 ≤ i →
      (rogueTreasureHandler trace).2.1.getD i 0 = 0) ∧
    rogueTreasureHandler [] = (0, [0, 0, 0, 0], []) ∧
    (∀ (c : Nat) (s : List Nat) (l : List (Nat × Nat)) (o : TObs)
        (rest : List TObs),
      o.running = false ∨ o.exitFlag = true ∨ o.timeout = true →
      collectLoop c s l (o :: rest) = (c, s, l)) ∧
    (∀ (s : List Nat) (l : List (Nat × Nat)) (rest : List TObs),
      collectLoop 4 s l rest = (4, s, l)) := by
  have hz4 : ∀ i : Nat, ([0, 0, 0, 0] : List Nat).getD i 0 = 0 := by
    intro i
    match i with
    | 0 => rfl
    | 1 => rfl
    | 2 => rfl
    | 3 => rfl
    | n + 4 => rfl
  obtain ⟨a1, a2, a3, a4, a5, a6⟩ := collectLoop_inv trace 0 [0, 0, 0, 0] []
    (by omega) rfl (fun i _ => hz4 i) (fun i hi => absurd hi (Nat.not_lt_zero i))
    (by simp) rfl
  refine ⟨a1, a6, a5, a4, a3, rfl, ?_, ?_⟩
  · intro c s l o rest hstop
    by_cases hcond : c < 4 ∧ o.running = true ∧ o.exitFlag = false
    · have htm : o.timeout = true := by
        rcases hstop with h | h | h
        · exact absurd hcond.2.1 (by simp [h])
        · exact absurd hcond.2.2 (by simp [h])
        · exact h
      simp only [collectLoop, if_pos hcond, if_pos htm]
    · simp only [collectLoop, if_neg hcond]
  · intro s l rest
    cases rest with
    | nil => rfl
    | cons o rest2 =>
      simp only [collectLoop]
      rw [if_neg]
      rintro ⟨h, -⟩
      exact absurd h (by omega)

/-- Witness for C6: one poll tick revealing the first treasure byte G
    leaves a non-zero byte at spoils position 0. -/
theorem treasure_collection_witness :
    (rogueTreasureHandler [⟨false, true, false, [71, 79, 76, 68]⟩]).2.1.getD 0 0 ≠ 0 :=
  ((treasure_collection [⟨false, true, false, [71, 79, 76, 68]⟩]).2.2.2.1 0
    (by decide)).1

/-- The two named semaphores created by game.c lines 184 and 190. -/
inductive Lever where
  | A : Lever
  | B : Lever
deriving DecidableEq

/-- A semaphore operation performed by a worker on a LeverCall event,
    with its outcome. -/
inductive SemEvent where
  | tryAcquire (l : Lever) (success : Bool) : SemEvent
  | blockAcquire (l : Lever) (success : Bool) : SemEvent
  | release (l : Lever) : SemEvent
deriving DecidableEq

/-- Continuation condition of the hold loop of wizard.c lines 158 and 178
    and barbarian.c line 109: running, fourth spoils byte still zero, and
    the exit flag unset. -/
def holdContinue (running : Bool) (spoils3 : Nat) (exitFlag : Bool) : Bool :=
  running && (spoils3 == 0) && !exitFlag

/-- Hold condition as the claim states it (refinement target): only
    running and the fourth spoils byte are mentioned. -/
def specHoldContinue (running : Bool) (spoils3 : Nat) : Bool :=
  running && (spoils3 == 0)

/-- Semaphore operations of the SEMAPHORE_SIGNAL branch of
    wizard_signal_handler (wizard.c lines 150 to 194): a non-blocking
    sem_trywait on lever two first, on failure a blocking sem_wait on
    lever one, each successful acquire later released by sem_post on the
    same semaphore.  tryB tells whether the trywait succeeds, waitA
    whether the fallback sem_wait returns success. -/
def wizardSemEvents (tryB : Bool) (waitA : Bool) : List SemEvent :=
  if tryB then [SemEvent.tryAcquire Lever.B true, SemEvent.release Lever.B]
  else if waitA then
    [SemEvent.tryAcquire Lever.B false, SemEvent.blockAcquire Lever.A true,
     SemEvent.release Lever.A]
  else [SemEvent.tryAcquire Lever.B false, SemEvent.blockAcquire Lever.A false]

/-- Semaphore operations of the SEMAPHORE_SIGNAL branch of
    barbarian_signal_handler (barbarian.c lines 101 to 127): a blocking
    sem_wait on lever one, released by sem_post on success. -/
def barbarianSemEvents (waitA : Bool) : List SemEvent :=
  if waitA then [SemEvent.blockAcquire Lever.A true, SemEvent.release Lever.A]
  else [SemEvent.blockAcquire Lever.A false]

/-- Levers successfully acquired, in order, in an event list. -/
def acquiredLevers : List SemEvent → List Lever
  | [] => []
  | SemEvent.tryAcquire l true :: r => l :: acquiredLevers r
  | SemEvent.blockAcquire l true :: r => l :: acquiredLevers r
  | _ :: r => acquiredLevers r

/-- Levers released, in order, in an event list. -/
def releasedLevers : List SemEvent → List Lever
  | [] => []
  | SemEvent.release l :: r => l :: releasedLevers r
  | _ :: r => releasedLevers r

/-- Counterexample to C7 as stated: with running true and the fourth
    spoils byte still zero but the shutdown flag set, the code stops
    holding the lever although the stated condition says the holder keeps
    it until the spoils complete or running turns false. -/
theorem lever_hold_counterexample :
    holdContinue true 0 true = false ∧ specHoldContinue true 0 = true := by
  decide

/-- C7 (amended): on a LeverCall event the Barbarian performs a blocking
    acquire on LeverA; the Wizard performs a non-blocking attempt on
    LeverB first and falls back to a blocking acquire on LeverA only if
    that attempt fails; each process releases exactly the levers it
    acquired; and the hold loop continues exactly while running is true,
    the fourth spoils byte is zero and the shutdown flag is unset. -/
theorem lever_protocol :
    (∀ wa : Bool, (barbarianSemEvents wa).head? =
      some (SemEvent.blockAcquire Lever.A wa)) ∧
    (∀ tb wa : Bool, (wizardSemEvents tb wa).head? =
      some (SemEvent.tryAcquire Lever.B tb)) ∧
    (∀ wa : Bool, ∀ l s, SemEvent.blockAcquire l s ∈ wizardSemEvents true wa → False) ∧
    (∀ wa : Bool, (wizardSemEvents false wa)[1]? =
      some (SemEvent.blockAcquire Lever.A wa)) ∧
    (∀ tb wa : Bool, releasedLevers (wizardSemEvents tb wa) =
      acquiredLevers (wizardSemEvents tb wa)) ∧
    (∀ wa : Bool, releasedLevers (barbarianSemEvents wa) =
      acquiredLevers (barbarianSemEvents wa)) ∧
    (∀ (r : Bool) (s3 : Nat) (e : Bool),
      holdContinue r s3 e = true ↔ r = true ∧ s3 = 0 ∧ e = false) := by
  refine ⟨?_, ?_, ?_, ?_, ?_, ?_, ?_⟩
  · intro wa; cases wa <;> rfl
  · intro tb wa; cases tb <;> cases wa <;> rfl
  · intro wa l s hmem
    cases wa <;> cases l <;> cases s <;> revert hmem <;> decide
  · intro wa; cases wa <;> rfl
  · intro tb wa; cases tb <;> cases wa <;> rfl
  · intro wa; cases wa <;> rfl
  · intro r s3 e
    cases r <;> cases e <;> simp [holdContinue]

/-- Witness for C7: the hold loop keeps running with spoils incomplete,
    running true and no shutdown request. -/
theorem lever_protocol_witness : holdContinue true 0 false = true :=
  (lever_protocol.2.2.2.2.2.2 true 0 false).mpr ⟨rfl, rfl, rfl⟩

/-- The shared Dungeon block (dungeon_info.h, as used by the worker
    sources): the run flag, the dungeon master pid, the enemy health, the
    barbarian attack, the trap state, the rogue pick, the two spell
    buffers, the treasure and the spoils. -/
structure Dungeon where
  running : Bool
  dungeonPID : Int
  enemyHealth : Int
  barbarianAttack : Int
  trapLocked : Bool
  trapDirection : Char
  roguePick : ℚ
  barrierSpell : List Nat
  wizardSpell : List Nat
  treasure : List Nat
  spoils : List Nat
deriving DecidableEq

/-- The DUNGEON_SIGNAL branch of barbarian_signal_handler (barbarian.c
    lines 80 to 99): after the exit flag and running guards, the enemy
    health is copied into the barbarian attack field. -/
def barbarianDungeonHandler (exitFlag : Bool) (d : Dungeon) : Dungeon :=
  if exitFlag = true then d
  else if d.running = false then d
  else { d with barbarianAttack := d.enemyHealth }

/-- C10: on a DUNGEON_SIGNAL with running true and the shutdown flag
    unset, the Barbarian writes exactly the current enemy health into the
    attack field and modifies no other shared field. -/
theorem barbarian_attack (exitFlag : Bool) (d : Dungeon)
    (he : exitFlag = false) (hr : d.running = true) :
    (barbarianDungeonHandler exitFlag d).barbarianAttack = d.enemyHealth ∧
    (barbarianDungeonHandler exitFlag d).running = d.running ∧
    (barbarianDungeonHandler exitFlag d).dungeonPID = d.dungeonPID ∧
    (barbarianDungeonHandler exitFlag d).enemyHealth = d.enemyHealth ∧
    (barbarianDungeonHandler exitFlag d).trapLocked = d.trapLocked ∧
    (barbarianDungeonHandler exitFlag d).trapDirection = d.trapDirection ∧
    (barbarianDungeonHandler exitFlag d).roguePick = d.roguePick ∧
    (barbarianDungeonHandler exitFlag d).barrierSpell = d.barrierSpell ∧
    (barbarianDungeonHandler exitFlag d).wizardSpell = d.wizardSpell ∧
    (barbarianDungeonHandler exitFlag d).treasure = d.treasure ∧
    (barbarianDungeonHandler exitFlag d).spoils = d.spoils := by
  subst he
  simp [barbarianDungeonHandler, hr]

/-- Witness for C10 on a concrete shared state with enemy health 55. -/
theorem barbarian_attack_witness :
    (barbarianDungeonHandler false
      ⟨true, 7, 55, 0, false, 't', 50, [], [], [71, 79, 76, 68],
        [0, 0, 0, 0]⟩).barbarianAttack = 55 :=
  (barbarian_attack false
    ⟨true, 7, 55, 0, false, 't', 50, [], [], [71, 79, 76, 68],
      [0, 0, 0, 0]⟩ rfl rfl).1

/-- Control state of a worker with respect to the levers: idle, parked in
    the blocking sem_wait on lever one, or holding one of the levers. -/
inductive PState where
  | idle : PState
  | waitA : PState
  | holdA : PState
  | holdB : PState
deriving DecidableEq

/-- Global state of the lever game: the two semaphore counters and the
    control state of the three workers. -/
structure LeverSt where
  semA : Nat
  semB : Nat
  barb : PState
  wiz : PState
  rogue : PState
deriving DecidableEq

/-- Initial state: game.c lines 184 and 190 create both semaphores with
    count 1; every worker starts outside the treasure room. -/
def leverInit : LeverSt := ⟨1, 1, PState.idle, PState.idle, PState.idle⟩

/-- Interleaved transitions of the three workers, from the code: the
    Barbarian blocks on lever one and posts it (barbarian.c lines 105 to
    119); the Wizard tries lever two without blocking, falls back to a
    blocking wait on lever one, and posts whichever it acquired (wizard.c
    lines 154 to 187); the Rogue performs no semaphore operation
    (rogue.c).  A sem_wait or successful sem_trywait requires a positive
    counter, which it decrements; sem_post increments the counter. -/
inductive LeverStep : LeverSt → LeverSt → Prop where
  | barbAcquire (s : LeverSt) (h : s.barb = PState.idle) (hs : 0 < s.semA) :
      LeverStep s { s with barb := PState.holdA, semA := s.semA - 1 }
  | barbRelease (s : LeverSt) (h : s.barb = PState.holdA) :
      LeverStep s { s with barb := PState.idle, semA := s.semA + 1 }
  | wizTrySucc (s : LeverSt) (h : s.wiz = PState.idle) (hs : 0 < s.semB) :
      LeverStep s { s with wiz := PState.holdB, semB := s.semB - 1 }
  | wizTryFail (s : LeverSt) (h : s.wiz = PState.idle) (hs : s.semB = 0) :
      LeverStep s { s with wiz := PState.waitA }
  | wizAcquireA (s : LeverSt) (h : s.wiz = PState.waitA) (hs : 0 < s.semA) :
      LeverStep s { s with wiz := PState.holdA, semA := s.semA - 1 }
  | wizReleaseA (s : LeverSt) (h : s.wiz = PState.holdA) :
      LeverStep s { s with wiz := PState.idle, semA := s.semA + 1 }
  | wizReleaseB (s : LeverSt) (h : s.wiz = PState.holdB) :
      LeverStep s { s with wiz := PState.idle, semB := s.semB + 1 }

/-- States reachable from the initial state under any interleaving. -/
inductive LeverReach : LeverSt → Prop where
  | init : LeverReach leverInit
  | step (s t : LeverSt) (hs : LeverReach s) (ht : LeverStep s t) : LeverReach t

/-- Contribution of one worker to the count of LeverA holders. -/
def holdsA (p : PState) : Nat := if p = PState.holdA then 1 else 0

/-- Contribution of one worker to the count of LeverB holders. -/
def holdsB (p : PState) : Nat := if p = PState.holdB then 1 else 0

/-- Number of simultaneous holders of LeverA. -/
def holdersA (s : LeverSt) : Nat := holdsA s.barb + holdsA s.wiz + holdsA s.rogue

/-- Number of simultaneous holders of LeverB. -/
def holdersB (s : LeverSt) : Nat := holdsB s.barb + holdsB s.wiz + holdsB s.rogue

lemma lever_sem_inv (s : LeverSt) (h : LeverReach s) :
    s.semA + holdersA s = 1 ∧ s.semB + holdersB s = 1 ∧ s.rogue = PState.idle := by
  induction h with
  | init => exact ⟨rfl, rfl, rfl⟩
  | step s t hs ht ih =>
    obtain ⟨ia, ib, ir⟩ := ih
    cases ht with
    | barbAcquire h hsem =>
      refine ⟨?_, ?_, ?_⟩
      · simp [holdersA, holdsA, h, ir] at ia ⊢; omega
      · simp [holdersB, holdsB, h, ir] at ib ⊢; omega
      · simpa using ir
    | barbRelease h =>
      refine ⟨?_, ?_, ?_⟩
      · simp [holdersA, holdsA, h, ir] at ia ⊢; omega
      · simp [holdersB, holdsB, h, ir] at ib ⊢; omega
      · simpa using ir
    | wizTrySucc h hsem =>
      refine ⟨?_, ?_, ?_⟩
      · simp [holdersA, holdsA, h, ir] at ia ⊢; omega
      · simp [holdersB, holdsB, h, ir] at ib ⊢; omega
      · simpa using ir
    | wizTryFail h hsem =>
      refine ⟨?_, ?_, ?_⟩
      · simp [holdersA, holdsA, h, ir] at ia ⊢; omega
      · simp [holdersB, holdsB, h, ir] at ib ⊢; omega
      · simpa using ir
    | wizAcquireA h hsem =>
      refine ⟨?_, ?_, ?_⟩
      · simp [holdersA, holdsA, h, ir] at ia ⊢; omega
      · simp [holdersB, holdsB, h, ir] at ib ⊢; omega
      · simpa using ir
    | wizReleaseA h =>
      refine ⟨?_, ?_, ?_⟩
      · simp [holdersA, holdsA, h, ir] at ia ⊢; omega
      · simp [holdersB, holdsB, h, ir] at ib ⊢; omega
      · simpa using ir
    | wizReleaseB h =>
      refine ⟨?_, ?_, ?_⟩
      · simp [holdersA, holdsA, h, ir] at ia ⊢; omega
      · simp [holdersB, holdsB, h, ir] at ib ⊢; omega
      · simpa using ir

/-- C8: under any interleaved schedule of the three workers contending
    for the two binary semaphores created with initial count 1, at any
    reachable instant at most one process holds each semaphore and the
    total number of simultaneous lever holders never exceeds 2. -/
theorem lever_mutual_exclusion (s : LeverSt) (h : LeverReach s) :
    holdersA s ≤ 1 ∧ holdersB s ≤ 1 ∧ holdersA s + holdersB s ≤ 2 := by
  obtain ⟨ia, ib, -⟩ := lever_sem_inv s h
  omega

/-- Witness for C8: the state reached after the Barbarian grabs lever one
    satisfies the holder bounds. -/
theorem lever_mutual_exclusion_witness :
    holdersA ⟨0, 1, PState.holdA, PState.idle, PState.idle⟩ ≤ 1 ∧
    holdersB ⟨0, 1, PState.holdA, PState.idle, PState.idle⟩ ≤ 1 ∧
    holdersA ⟨0, 1, PState.holdA, PState.idle, PState.idle⟩ +
      holdersB ⟨0, 1, PState.holdA, PState.idle, PState.idle⟩ ≤ 2 :=
  lever_mutual_exclusion _
    (LeverReach.step leverInit _ LeverReach.init
      (LeverStep.barbAcquire leverInit rfl (by decide)))
